import Mathlib

/-!
Verification of the digit-classification sketchpad (`src/drawingapp.py`).

The embedding below translates the algorithmic content of `DrawingApp`:
the antialiased brush rasterizer (`_antialiased_paint`), the MNIST-style
preprocessing pipeline and results rendering (`_update_results`), and the
`clear` operation.  Constants come from `DrawingApp.__init__`:
`rows = cols = 28`, `cell_size = 10`, `brush_radius = cell_size * 1.5 = 15`.
Pixel intensities are floats in `[0, 1]`, modelled as real numbers; pointer
coordinates are tkinter event integers, modelled as `ℤ`.

External collaborators, which are not part of this repository, are kept
opaque: the trained network (`load_trained_network` / `feedforward`) is a
parameter `net : List ℚ → List ℚ`, and PIL's `GaussianBlur(radius=0.5)`
filter is a parameter `blur : ByteImg → ByteImg` (it maps an 8-bit image to
an 8-bit image).
-/

namespace DrawingApp

def rows : ℤ := 28
def cols : ℤ := 28

/-- A pixel grid: the 28×28 numpy array `self.pixels` of float intensities,
indexed `(row, col)`; only indices with `0 ≤ r < 28`, `0 ≤ c < 28` exist in
the array, and the rasterizer below only ever touches those. -/
abbrev Grid := ℤ → ℤ → ℝ

/-- Membership in the 28×28 index domain of the arrays. -/
abbrev inGrid (r c : ℤ) : Prop := 0 ≤ r ∧ r < rows ∧ 0 ≤ c ∧ c < cols

/-! ### Brush rasterizer: `_antialiased_paint` (lines 82-110)

`r_min = max(0, int((y - brush_radius) // cell_size))` etc.; the operands
are integer-valued (event coordinates are ints, `brush_radius = 15.0`,
`cell_size = 10`), Python float floor-division `a // 10` is `⌊a / 10⌋`,
which on integers is `Int.fdiv`, and `int()` of its result is the same
integer. -/

def rMin (y : ℤ) : ℤ := max 0 ((y - 15).fdiv 10)

def rMax (y : ℤ) : ℤ := min (rows - 1) ((y + 15).fdiv 10)

def cMin (x : ℤ) : ℤ := max 0 ((x - 15).fdiv 10)

def cMax (x : ℤ) : ℤ := min (cols - 1) ((x + 15).fdiv 10)

/-- `dist = math.hypot(cx - x, cy - y)` with `cx = (c + 0.5) * cell_size`,
`cy = (r + 0.5) * cell_size` (lines 92-95). -/
noncomputable def cellDist (x y r c : ℤ) : ℝ :=
  Real.sqrt ((((c : ℝ) + 0.5) * 10 - (x : ℝ)) ^ 2 + (((r : ℝ) + 0.5) * 10 - (y : ℝ)) ^ 2)

/-- The iteration space of the two nested `for` loops (lines 90-91): the
bounding cell range of the brush circle, clipped to the grid. -/
abbrev inBox (x y r c : ℤ) : Prop :=
  rMin y ≤ r ∧ r ≤ rMax y ∧ cMin x ≤ c ∧ c ≤ cMax x

open Classical in
/-- `_antialiased_paint(x, y)` acting on the pixel grid.  For each cell of
the clipped bounding box whose center lies within `brush_radius`, lines
97-102 set `pixels[r, c] := max(pixels[r, c], 1 - dist / brush_radius)`
(the guarded write `if intensity > self.pixels[r, c]` makes the update
exactly a `max`); every other cell is left alone. -/
noncomputable def antialiased_paint (g : Grid) (x y : ℤ) : Grid := fun r c =>
  if inBox x y r c ∧ cellDist x y r c ≤ 15 then
    max (g r c) (1 - cellDist x y r c / 15)
  else g r c

/-- A whole stroke sequence: repeated `_antialiased_paint` calls. -/
noncomputable def paintMany (g : Grid) (ps : List (ℤ × ℤ)) : Grid :=
  ps.foldl (fun h p => antialiased_paint h p.1 p.2) g

/-! ### Preprocessing pipeline: `_update_results` (lines 112-169) -/

/-- An 8-bit grayscale image (`np.uint8` array / PIL mode `L`). -/
abbrev ByteImg := ℤ → ℤ → ℕ

/-- Python `int()`: truncation toward zero. -/
def pytrunc (q : ℚ) : ℤ := if 0 ≤ q then q.floor else -((-q).floor)

/-- `img = (self.pixels * 255).astype(np.uint8)` (line 126): scale to the
8-bit range; the C-style cast truncates toward zero and wraps mod 256. -/
noncomputable def pixelsToBytes (g : Grid) : ByteImg := fun r c =>
  ((if 0 ≤ g r c * 255 then ⌊g r c * 255⌋ else -⌊-(g r c * 255)⌋) % 256).toNat

/-- Total mass of the byte image; `coords.size` (line 132) is nonzero
exactly when this is positive. -/
def imgTotal (im : ByteImg) : ℕ :=
  ∑ r ∈ Finset.range 28, ∑ c ∈ Finset.range 28, im r c

/-- Numerator of the weighted mean row: `Σ row * weight` over all cells
(cells with weight 0 contribute nothing, so the sum may range over the
whole grid instead of only `np.nonzero` coordinates). -/
def comRowNum (im : ByteImg) : ℤ :=
  ∑ r ∈ Finset.range 28, ∑ c ∈ Finset.range 28, (r : ℤ) * (im r c : ℤ)

/-- Numerator of the weighted mean column: `Σ col * weight`. -/
def comColNum (im : ByteImg) : ℤ :=
  ∑ r ∈ Finset.range 28, ∑ c ∈ Finset.range 28, (c : ℤ) * (im r c : ℤ)

/-- `cy = np.average(coords[:,0], weights=weights)` (line 135): the
intensity-weighted mean row of the nonzero pixels,
`Σ row * weight / Σ weight`. -/
def comRow (im : ByteImg) : ℚ := (comRowNum im : ℚ) / (imgTotal im : ℚ)

/-- `cx = np.average(coords[:,1], weights=weights)` (line 136). -/
def comCol (im : ByteImg) : ℚ := (comColNum im : ℚ) / (imgTotal im : ℚ)

/-- `shift_y = int(self.rows//2 - cy)` (line 138); `rows // 2 = 14`. -/
def shiftY (im : ByteImg) : ℤ := pytrunc (14 - comRow im)

/-- `shift_x = int(self.cols//2 - cx)` (line 139). -/
def shiftX (im : ByteImg) : ℤ := pytrunc (14 - comCol im)

/-- `pil_img.transform(size, Image.AFFINE, (1, 0, shift_x, 0, 1, shift_y),
fillcolor=0)` (lines 141-144).  Per the PIL documentation, for each pixel
`(x, y)` in the OUTPUT image the value is taken from position
`(a*x + b*y + c, d*x + e*y + f)` in the INPUT image — here from
`(x + shift_x, y + shift_y)` — and positions outside the input are filled
with `fillcolor = 0`.  The offsets are integers, so no resampling occurs. -/
def applyAffine (im : ByteImg) (sx sy : ℤ) : ByteImg := fun r c =>
  if inGrid (r + sy) (c + sx) then im (r + sy) (c + sx) else 0

/-- The center-of-mass shift step, guarded by `if coords.size:` (line 132):
when the image has a nonzero pixel, apply the affine translation with the
computed shifts; otherwise leave the image alone. -/
def comShiftStep (im : ByteImg) : ByteImg :=
  if 0 < imgTotal im then applyAffine im (shiftX im) (shiftY im) else im

/-- A float image, `np_img = np.array(pil_img).astype(np.float32)`
(line 150), modelled with exact rationals. -/
abbrev QImg := ℤ → ℤ → ℚ

def byteToQ (im : ByteImg) : QImg := fun r c => (im r c : ℚ)

/-- Row-major flattening: `np_img.reshape((784, 1))` then `np.ravel`
(lines 157-159); also how numpy reductions (`min`, `max`) visit the array. -/
def flattenQ (im : QImg) : List ℚ :=
  (List.range 28).flatMap fun r => (List.range 28).map fun c => im ((r : ℕ) : ℤ) ((c : ℕ) : ℤ)

/-- `np_img.min()`: a fold of `min` over the array elements. -/
def listMin : List ℚ → ℚ
  | [] => 0
  | x :: xs => xs.foldl min x

/-- `np_img.max()`: a fold of `max` over the array elements. -/
def listMax : List ℚ → ℚ
  | [] => 0
  | x :: xs => xs.foldl max x

def imgMin (im : QImg) : ℚ := listMin (flattenQ im)

def imgMax (im : QImg) : ℚ := listMax (flattenQ im)

/-- Contrast stretch (lines 151-154): `mn, mx = np_img.min(), np_img.max()`
and `if mx > mn: np_img = (np_img - mn) / (mx - mn)`; when `mx ≤ mn`
(a constant image) the array is left unchanged and no division occurs. -/
def contrastStretch (im : QImg) : QImg :=
  if imgMin im < imgMax im then
    fun r c => (im r c - imgMin im) / (imgMax im - imgMin im)
  else im

/-! ### Ranking and rendering (lines 156-169)

`ranking = np.argsort(probs)[::-1]` sorts the digit indices by ascending
probability and reverses.  `np.argsort`'s default quicksort is a comparison
sort with unspecified tie order; an insertion sort is used here — every
property proved below (permutation, descending order, the unique-maximum
head) is tie-order independent. -/

def insertAsc (p : ℕ → ℚ) (i : ℕ) : List ℕ → List ℕ
  | [] => [i]
  | j :: l => if p i ≤ p j then i :: j :: l else j :: insertAsc p i l

def argsortAsc (p : ℕ → ℚ) (l : List ℕ) : List ℕ := l.foldr (insertAsc p) []

/-- `np.argsort(probs)[::-1]` over the ten digit indices. -/
def ranking (p : ℕ → ℚ) : List ℕ := (argsortAsc p (List.range 10)).reverse

/-- Round to the nearest integer, ties to even: how Python's fixed-point
float formatting `{:.2f}` rounds the (exactly represented) value. -/
def roundHalfEven (q : ℚ) : ℤ :=
  if q - q.floor < 1 / 2 then q.floor
  else if 1 / 2 < q - q.floor then q.floor + 1
  else if q.floor % 2 = 0 then q.floor else q.floor + 1

def pad2 (n : ℕ) : String := if n < 10 then "0" ++ toString n else toString n

/-- The digits of `{v:.2f}`: the value rounded to two decimal places. -/
def fixed2 (v : ℚ) : String :=
  (if roundHalfEven (v * 100) < 0 then "-" else "")
    ++ toString ((roundHalfEven (v * 100)).natAbs / 100) ++ "."
    ++ pad2 ((roundHalfEven (v * 100)).natAbs % 100)

def padLeft6 (s : String) : String :=
  String.mk (List.replicate (6 - s.length) ' ') ++ s

/-- Python `{v:6.2f}`: two decimal places, right-aligned in width 6. -/
def fmt62 (v : ℚ) : String := padLeft6 (fixed2 v)

/-- One rendered line, `f"{d}: {pct:6.2f}%"` with `pct = probs[d] * 100`
(lines 166-167). -/
def rankedLine (d : ℕ) (pd : ℚ) : String :=
  toString d ++ ": " ++ fmt62 (pd * 100) ++ "%"

/-- The ranked results panel contents for a probability vector. -/
def renderResults (p : List ℚ) : List String :=
  (ranking fun i => p.getD i 0).map fun d => rankedLine d (p.getD d 0)

/-- One line of the all-zero display, `f"{d}:    0.00%\n"` (line 119). -/
def zeroLine (d : ℕ) : String := toString d ++ ":    0.00%"

/-- The all-zero display: ten lines in digit order 0-9 (lines 118-119). -/
def zeroLines : List String := (List.range 10).map zeroLine

open Classical in
/-- The text written to the results panel by `_update_results`.  If no pixel
is set (`if not np.any(self.pixels)`, line 114) the all-zero display is
produced and the pipeline and the network are never invoked; otherwise the
grid is scaled to bytes, recentered, blurred, contrast-stretched, flattened
and fed to the network, and the ranked lines are rendered. -/
noncomputable def update_results_display (blur : ByteImg → ByteImg)
    (net : List ℚ → List ℚ) (g : Grid) : List String :=
  if ∀ r c, inGrid r c → g r c = 0 then zeroLines
  else renderResults (net (flattenQ (contrastStretch (byteToQ
    (blur (comShiftStep (pixelsToBytes g)))))))

/-! ### Application state: pixels, canvas cell colors, results panel -/

structure AppState where
  pixels : Grid
  colors : ℤ → ℤ → String
  display : List String

/-- `_update_results` as a state transformer: it reads `self.pixels` and
rewrites the results panel; it assigns neither `self.pixels` nor any canvas
cell color (all image transforms operate on fresh copies: `*`, `astype`,
`Image.fromarray`, `transform`, `filter`, `np.array` each allocate). -/
noncomputable def update_results_state (blur : ByteImg → ByteImg)
    (net : List ℚ → List ℚ) (s : AppState) : AppState :=
  { s with display := update_results_display blur net s.pixels }

/-- `clear` (lines 171-178): `self.pixels.fill(0)`, every canvas cell is
refilled with `"white"`, then `_update_results()` runs. -/
noncomputable def clearOp (blur : ByteImg → ByteImg)
    (net : List ℚ → List ℚ) (s : AppState) : AppState :=
  update_results_state blur net
    { s with
      pixels := fun _ _ => 0
      colors := fun r c => if inGrid r c then "white" else s.colors r c }

/-- A test image with a single nonzero pixel. -/
def singleByteImg (r0 c0 : ℤ) (w : ℕ) : ByteImg := fun r c =>
  if r = r0 ∧ c = c0 then w else 0

/-- The probability vector `[0.1, 0, 0, 0, 0, 0, 0, 0, 0, 0.9]` of the
spec's mock-network scenario (`Rat.divInt 1 10 = 0.1` exactly). -/
def p90 : List ℚ :=
  [Rat.divInt 1 10, 0, 0, 0, 0, 0, 0, 0, 0, Rat.divInt 9 10]

/-- A non-constant test image: value 1 at the corner cell, 0 elsewhere. -/
def testImg : QImg := fun r c => if r = 0 ∧ c = 0 then 1 else 0

/-! ## Helper lemmas -/

/-- `Rat.floor` agrees with the mathematical floor `⌊·⌋`. -/
theorem ratFloor_eq_intFloor (q : ℚ) : q.floor = ⌊q⌋ := by
  rw [Rat.floor_def', Rat.floor_def]

/-- The clipped bounding box only contains valid grid indices. -/
theorem inGrid_of_inBox {x y r c : ℤ} (h : inBox x y r c) : inGrid r c := by
  obtain ⟨h1, h2, h3, h4⟩ := h
  have hr : r ≤ rows - 1 := le_trans h2 (min_le_left _ _)
  have hc : c ≤ cols - 1 := le_trans h4 (min_le_left _ _)
  exact ⟨le_trans (le_max_left _ _) h1, by omega,
         le_trans (le_max_left _ _) h3, by omega⟩

/-- A valid cell whose center is within the brush radius of `(x, y)` lies
between the computed row bounds: the vertical offset of the cell center is
at most the radius, and the floor-division bounds follow. -/
theorem row_bounds_of_dist (x y r c : ℤ) (h0 : 0 ≤ r) (h1 : r ≤ rows - 1)
    (hd : cellDist x y r c ≤ 15) : rMin y ≤ r ∧ r ≤ rMax y := by
  have hnn : (0:ℝ) ≤ (((c : ℝ) + 0.5) * 10 - (x : ℝ)) ^ 2
      + (((r : ℝ) + 0.5) * 10 - (y : ℝ)) ^ 2 := by positivity
  have hsq : (((c : ℝ) + 0.5) * 10 - (x : ℝ)) ^ 2
      + (((r : ℝ) + 0.5) * 10 - (y : ℝ)) ^ 2 ≤ 225 := by
    have h2 := Real.sq_sqrt hnn
    have h3 := Real.sqrt_nonneg ((((c : ℝ) + 0.5) * 10 - (x : ℝ)) ^ 2
      + (((r : ℝ) + 0.5) * 10 - (y : ℝ)) ^ 2)
    unfold cellDist at hd
    nlinarith [hd]
  have hylo : (y : ℝ) - 15 ≤ 10 * (r : ℝ) + 5 := by
    nlinarith [sq_nonneg ((((r : ℝ) + 0.5) * 10 - (y : ℝ)) + 15),
      sq_nonneg (((c : ℝ) + 0.5) * 10 - (x : ℝ))]
  have hyhi : 10 * (r : ℝ) + 5 ≤ (y : ℝ) + 15 := by
    nlinarith [sq_nonneg ((((r : ℝ) + 0.5) * 10 - (y : ℝ)) - 15),
      sq_nonneg (((c : ℝ) + 0.5) * 10 - (x : ℝ))]
  have hzlo : y - 15 ≤ 10 * r + 5 := by exact_mod_cast hylo
  have hzhi : 10 * r + 5 ≤ y + 15 := by exact_mod_cast hyhi
  constructor
  · unfold rMin
    rw [Int.fdiv_eq_ediv _ (by norm_num)]
    have hlt : (y - 15) / 10 < r + 1 :=
      (Int.ediv_lt_iff_lt_mul (by norm_num)).mpr (by omega)
    exact max_le h0 (by omega)
  · unfold rMax
    rw [Int.fdiv_eq_ediv _ (by norm_num)]
    exact le_min h1 ((Int.le_ediv_iff_mul_le (by norm_num)).mpr (by omega))

/-- Column analogue of `row_bounds_of_dist`. -/
theorem col_bounds_of_dist (x y r c : ℤ) (h0 : 0 ≤ c) (h1 : c ≤ cols - 1)
    (hd : cellDist x y r c ≤ 15) : cMin x ≤ c ∧ c ≤ cMax x := by
  have hnn : (0:ℝ) ≤ (((c : ℝ) + 0.5) * 10 - (x : ℝ)) ^ 2
      + (((r : ℝ) + 0.5) * 10 - (y : ℝ)) ^ 2 := by positivity
  have hsq : (((c : ℝ) + 0.5) * 10 - (x : ℝ)) ^ 2
      + (((r : ℝ) + 0.5) * 10 - (y : ℝ)) ^ 2 ≤ 225 := by
    have h2 := Real.sq_sqrt hnn
    have h3 := Real.sqrt_nonneg ((((c : ℝ) + 0.5) * 10 - (x : ℝ)) ^ 2
      + (((r : ℝ) + 0.5) * 10 - (y : ℝ)) ^ 2)
    unfold cellDist at hd
    nlinarith [hd]
  have hxlo : (x : ℝ) - 15 ≤ 10 * (c : ℝ) + 5 := by
    nlinarith [sq_nonneg ((((c : ℝ) + 0.5) * 10 - (x : ℝ)) + 15),
      sq_nonneg (((r : ℝ) + 0.5) * 10 - (y : ℝ))]
  have hxhi : 10 * (c : ℝ) + 5 ≤ (x : ℝ) + 15 := by
    nlinarith [sq_nonneg ((((c : ℝ) + 0.5) * 10 - (x : ℝ)) - 15),
      sq_nonneg (((r : ℝ) + 0.5) * 10 - (y : ℝ))]
  have hzlo : x - 15 ≤ 10 * c + 5 := by exact_mod_cast hxlo
  have hzhi : 10 * c + 5 ≤ x + 15 := by exact_mod_cast hxhi
  constructor
  · unfold cMin
    rw [Int.fdiv_eq_ediv _ (by norm_num)]
    have hlt : (x - 15) / 10 < c + 1 :=
      (Int.ediv_lt_iff_lt_mul (by norm_num)).mpr (by omega)
    exact max_le h0 (by omega)
  · unfold cMax
    rw [Int.fdiv_eq_ediv _ (by norm_num)]
    exact le_min h1 ((Int.le_ediv_iff_mul_le (by norm_num)).mpr (by omega))

/-- One `_antialiased_paint` call never lowers a cell. -/
theorem le_antialiased_paint (g : Grid) (x y r c : ℤ) :
    g r c ≤ antialiased_paint g x y r c := by
  unfold antialiased_paint
  split
  · exact le_max_left _ _
  · exact le_rfl

/-! ## Claims -/

open Classical in
/-- C3: painting postcondition.  For every pointer position `(x, y)` and
every cell `(r, c)`: if the cell is in bounds and its center lies within
the brush radius of `(x, y)`, its stored intensity after
`_antialiased_paint(x, y)` equals `max(old, 1 - dist/brush_radius)`;
every other cell is unchanged.  In particular every in-bounds cell within
the radius is covered by the computed bounding cell range (that coverage is
exactly what the `row_bounds_of_dist` / `col_bounds_of_dist` steps of the
proof establish). -/
theorem antialiased_paint_postcondition (g : Grid) (x y r c : ℤ) :
    antialiased_paint g x y r c =
      if inGrid r c ∧ cellDist x y r c ≤ 15 then
        max (g r c) (1 - cellDist x y r c / 15)
      else g r c := by
  unfold antialiased_paint
  by_cases hd : cellDist x y r c ≤ 15
  · by_cases hg : inGrid r c
    · have hb : inBox x y r c := by
        obtain ⟨e1, e2, e3, e4⟩ := hg
        obtain ⟨a1, a2⟩ := row_bounds_of_dist x y r c e1 (by omega) hd
        obtain ⟨b1, b2⟩ := col_bounds_of_dist x y r c e3 (by omega) hd
        exact ⟨a1, a2, b1, b2⟩
      rw [if_pos ⟨hb, hd⟩, if_pos ⟨hg, hd⟩]
    · rw [if_neg (fun h => hg (inGrid_of_inBox h.1)), if_neg (fun h => hg h.1)]
  · rw [if_neg (fun h => hd h.2), if_neg (fun h => hd h.2)]

/-- C4: monotonicity.  Across any sequence of `_antialiased_paint` calls,
at any coordinates, no cell's stored intensity ever decreases (each call
only applies `max`, guarded by a strict comparison). -/
theorem paint_monotone (ps : List (ℤ × ℤ)) (g : Grid) (r c : ℤ) :
    g r c ≤ paintMany g ps r c := by
  induction ps generalizing g with
  | nil => exact le_rfl
  | cons p t ih =>
    simp only [paintMany, List.foldl_cons] at ih ⊢
    exact le_trans (le_antialiased_paint g p.1 p.2 r c) (ih _)

/-- C5: bounds safety.  For every pointer coordinate pair, including ones
outside the canvas: every index of the iteration space (hence every index
`_antialiased_paint` reads or writes) is a valid grid index; when the
clipped range is empty the iteration space is empty; and any cell outside
the iteration space is untouched.  The embedding is a total function, so
no error is raised for any input. -/
theorem paint_bounds_safety (x y r c : ℤ) (g : Grid) :
    (inBox x y r c → inGrid r c)
    ∧ ((rMax y < rMin y ∨ cMax x < cMin x) → ¬ inBox x y r c)
    ∧ (¬ inBox x y r c → antialiased_paint g x y r c = g r c) := by
  refine ⟨fun h => inGrid_of_inBox h, fun h hb => ?_, fun h => ?_⟩
  · obtain ⟨h1, h2, h3, h4⟩ := hb
    rcases h with h | h <;> omega
  · unfold antialiased_paint
    rw [if_neg (fun hh => h hh.1)]

/-- Witness for C5: the box of a pointer at `(5, 5)` contains cell
`(0, 0)`, which is a valid index; a pointer far outside the canvas at
`(1000, 1000)` leaves cell `(0, 0)` of the zero grid untouched. -/
theorem paint_bounds_safety_witness :
    inGrid 0 0 ∧ antialiased_paint (fun _ _ => 0) 1000 1000 0 0 = 0 :=
  ⟨(paint_bounds_safety 5 5 0 0 (fun _ _ => 0)).1 (by decide),
   (paint_bounds_safety 1000 1000 0 0 (fun _ _ => 0)).2.2 (by decide)⟩

/-! ## Contrast stretch lemmas -/

theorem foldl_min_le_init (xs : List ℚ) (x : ℚ) : xs.foldl min x ≤ x := by
  induction xs generalizing x with
  | nil => exact le_rfl
  | cons y ys ih => exact le_trans (ih (min x y)) (min_le_left x y)

theorem foldl_min_le_mem {a : ℚ} (xs : List ℚ) (x : ℚ) (h : a ∈ xs) :
    xs.foldl min x ≤ a := by
  induction xs generalizing x with
  | nil => cases h
  | cons y ys ih =>
    rcases List.mem_cons.mp h with rfl | hys
    · exact le_trans (foldl_min_le_init ys (min x a)) (min_le_right x a)
    · exact ih (min x y) hys

theorem foldl_max_init_le (xs : List ℚ) (x : ℚ) : x ≤ xs.foldl max x := by
  induction xs generalizing x with
  | nil => exact le_rfl
  | cons y ys ih => exact le_trans (le_max_left x y) (ih (max x y))

theorem foldl_mem_le_max {a : ℚ} (xs : List ℚ) (x : ℚ) (h : a ∈ xs) :
    a ≤ xs.foldl max x := by
  induction xs generalizing x with
  | nil => cases h
  | cons y ys ih =>
    rcases List.mem_cons.mp h with rfl | hys
    · exact le_trans (le_max_right x a) (foldl_max_init_le ys (max x a))
    · exact ih (max x y) hys

theorem foldl_min_mem (xs : List ℚ) (x : ℚ) : xs.foldl min x ∈ x :: xs := by
  induction xs generalizing x with
  | nil => exact List.mem_singleton.mpr rfl
  | cons y ys ih =>
    have h := ih (min x y)
    show List.foldl min (min x y) ys ∈ x :: y :: ys
    rcases List.mem_cons.mp h with h1 | h1
    · rcases min_choice x y with h2 | h2
      · exact List.mem_cons.mpr (Or.inl (h1.trans h2))
      · exact List.mem_cons.mpr (Or.inr (List.mem_cons.mpr (Or.inl (h1.trans h2))))
    · exact List.mem_cons.mpr (Or.inr (List.mem_cons.mpr (Or.inr h1)))

theorem foldl_max_mem (xs : List ℚ) (x : ℚ) : xs.foldl max x ∈ x :: xs := by
  induction xs generalizing x with
  | nil => exact List.mem_singleton.mpr rfl
  | cons y ys ih =>
    have h := ih (max x y)
    show List.foldl max (max x y) ys ∈ x :: y :: ys
    rcases List.mem_cons.mp h with h1 | h1
    · rcases max_choice x y with h2 | h2
      · exact List.mem_cons.mpr (Or.inl (h1.trans h2))
      · exact List.mem_cons.mpr (Or.inr (List.mem_cons.mpr (Or.inl (h1.trans h2))))
    · exact List.mem_cons.mpr (Or.inr (List.mem_cons.mpr (Or.inr h1)))

theorem listMin_mem {l : List ℚ} (h : l ≠ []) : listMin l ∈ l := by
  cases l with
  | nil => exact absurd rfl h
  | cons x xs => exact foldl_min_mem xs x

theorem listMax_mem {l : List ℚ} (h : l ≠ []) : listMax l ∈ l := by
  cases l with
  | nil => exact absurd rfl h
  | cons x xs => exact foldl_max_mem xs x

theorem listMin_le_of_mem {a : ℚ} {l : List ℚ} (h : a ∈ l) : listMin l ≤ a := by
  cases l with
  | nil => cases h
  | cons x xs =>
    rcases List.mem_cons.mp h with rfl | hxs
    · exact foldl_min_le_init xs a
    · exact foldl_min_le_mem xs x hxs

theorem le_listMax_of_mem {a : ℚ} {l : List ℚ} (h : a ∈ l) : a ≤ listMax l := by
  cases l with
  | nil => cases h
  | cons x xs =>
    rcases List.mem_cons.mp h with rfl | hxs
    · exact foldl_max_init_le xs a
    · exact foldl_mem_le_max xs x hxs

/-- Every element of the flattened image comes from a valid grid cell. -/
theorem exists_cell_of_mem_flattenQ {im : QImg} {v : ℚ} (h : v ∈ flattenQ im) :
    ∃ r c : ℤ, inGrid r c ∧ im r c = v := by
  unfold flattenQ at h
  simp only [List.mem_flatMap, List.mem_map, List.mem_range] at h
  obtain ⟨r, hr, c, hc, hv⟩ := h
  refine ⟨r, c, ⟨Int.natCast_nonneg r, ?_, Int.natCast_nonneg c, ?_⟩, hv⟩
  · show (r : ℤ) < rows
    unfold rows
    exact_mod_cast hr
  · show (c : ℤ) < cols
    unfold cols
    exact_mod_cast hc

/-- A valid grid cell's value occurs in the flattened image. -/
theorem mem_flattenQ_of_cell (im : QImg) {r c : ℕ} (hr : r < 28) (hc : c < 28) :
    im r c ∈ flattenQ im := by
  unfold flattenQ
  simp only [List.mem_flatMap, List.mem_map, List.mem_range]
  exact ⟨r, hr, c, hc, rfl⟩

theorem flattenQ_ne_nil (im : QImg) : flattenQ im ≠ [] :=
  List.ne_nil_of_mem (@mem_flattenQ_of_cell im 0 0 (by norm_num) (by norm_num))

/-- C7: contrast stretch.  When the post-blur image is not constant
(`mn < mx`), the rescale maps every value `v` to `(v - mn) / (mx - mn)`;
some valid cell attains the minimum and is mapped to exactly 0, and some
valid cell attains the maximum and is mapped to exactly 1.  When the image
is constant (`mn = mx`) every value is left unchanged (the division branch
is not taken). -/
theorem contrast_stretch_correct (im : QImg) :
    (imgMin im < imgMax im →
      (∀ r c, contrastStretch im r c
          = (im r c - imgMin im) / (imgMax im - imgMin im))
      ∧ (∃ r c, inGrid r c ∧ im r c = imgMin im ∧ contrastStretch im r c = 0)
      ∧ (∃ r c, inGrid r c ∧ im r c = imgMax im ∧ contrastStretch im r c = 1))
    ∧ (imgMin im = imgMax im → contrastStretch im = im) := by
  constructor
  · intro hlt
    have hmap : ∀ r c, contrastStretch im r c
        = (im r c - imgMin im) / (imgMax im - imgMin im) := by
      intro r c
      unfold contrastStretch
      rw [if_pos hlt]
    refine ⟨hmap, ?_, ?_⟩
    · obtain ⟨r, c, hg, hv⟩ :=
        exists_cell_of_mem_flattenQ (listMin_mem (flattenQ_ne_nil im))
      exact ⟨r, c, hg, hv, by rw [hmap, hv]; exact div_eq_zero_iff.mpr (Or.inl (sub_self _))⟩
    · obtain ⟨r, c, hg, hv⟩ :=
        exists_cell_of_mem_flattenQ (listMax_mem (flattenQ_ne_nil im))
      refine ⟨r, c, hg, hv, ?_⟩
      rw [hmap, hv]
      exact div_self (sub_ne_zero.mpr (ne_of_gt hlt))
  · intro heq
    unfold contrastStretch
    rw [if_neg (by rw [heq]; exact lt_irrefl _)]

/-- Witness for C7: the non-constant image `testImg` (1 at the corner,
0 elsewhere) satisfies the non-constance hypothesis and hence the
stretch conclusions. -/
theorem contrast_stretch_correct_witness :
    imgMin testImg < imgMax testImg
    ∧ ((∀ r c, contrastStretch testImg r c
          = (testImg r c - imgMin testImg) / (imgMax testImg - imgMin testImg))
      ∧ (∃ r c, inGrid r c ∧ testImg r c = imgMin testImg
          ∧ contrastStretch testImg r c = 0)
      ∧ (∃ r c, inGrid r c ∧ testImg r c = imgMax testImg
          ∧ contrastStretch testImg r c = 1)) := by
  have h0 : imgMin testImg ≤ 0 := by
    have hm := @mem_flattenQ_of_cell testImg 0 1 (by norm_num) (by norm_num)
    push_cast at hm
    have hv : testImg 0 1 = 0 := by decide
    rw [hv] at hm
    exact listMin_le_of_mem hm
  have h1 : (1:ℚ) ≤ imgMax testImg := by
    have hm := @mem_flattenQ_of_cell testImg 0 0 (by norm_num) (by norm_num)
    push_cast at hm
    have hv : testImg 0 0 = 1 := by decide
    rw [hv] at hm
    exact le_listMax_of_mem hm
  have hlt : imgMin testImg < imgMax testImg :=
    lt_of_le_of_lt h0 (lt_of_lt_of_le zero_lt_one h1)
  exact ⟨hlt, (contrast_stretch_correct testImg).1 hlt⟩

/-! ## Sorting lemmas -/

theorem insertAsc_perm (p : ℕ → ℚ) (i : ℕ) (l : List ℕ) :
    (insertAsc p i l).Perm (i :: l) := by
  induction l with
  | nil => exact List.Perm.refl _
  | cons j t ih =>
    show (if p i ≤ p j then i :: j :: t else j :: insertAsc p i t).Perm (i :: j :: t)
    split
    · exact List.Perm.refl _
    · exact (List.Perm.cons j ih).trans (List.Perm.swap i j t)

theorem argsortAsc_perm (p : ℕ → ℚ) (l : List ℕ) : (argsortAsc p l).Perm l := by
  induction l with
  | nil => exact List.Perm.refl _
  | cons a t ih =>
    show (insertAsc p a (argsortAsc p t)).Perm (a :: t)
    exact (insertAsc_perm p a _).trans (ih.cons a)

theorem insertAsc_pairwise (p : ℕ → ℚ) (i : ℕ) {l : List ℕ}
    (h : l.Pairwise (fun a b => p a ≤ p b)) :
    (insertAsc p i l).Pairwise (fun a b => p a ≤ p b) := by
  induction l with
  | nil => simp [insertAsc]
  | cons j t ih =>
    rw [List.pairwise_cons] at h
    obtain ⟨hj, ht⟩ := h
    show (if p i ≤ p j then i :: j :: t else j :: insertAsc p i t).Pairwise _
    split
    · next hij =>
      rw [List.pairwise_cons]
      refine ⟨?_, List.pairwise_cons.mpr ⟨hj, ht⟩⟩
      intro b hb
      rcases List.mem_cons.mp hb with rfl | hbt
      · exact hij
      · exact le_trans hij (hj b hbt)
    · next hij =>
      rw [List.pairwise_cons]
      refine ⟨?_, ih ht⟩
      intro b hb
      rcases List.mem_cons.mp ((insertAsc_perm p i t).mem_iff.mp hb) with rfl | hbt
      · exact (not_le.mp hij).le
      · exact hj b hbt

theorem argsortAsc_pairwise (p : ℕ → ℚ) (l : List ℕ) :
    (argsortAsc p l).Pairwise (fun a b => p a ≤ p b) := by
  induction l with
  | nil => simp [argsortAsc]
  | cons a t ih =>
    show (insertAsc p a (argsortAsc p t)).Pairwise _
    exact insertAsc_pairwise p a ih

/-- C8: for every probability vector returned by the network, the rendered
digit sequence `np.argsort(probs)[::-1]` is a permutation of the digits
0-9 and is ordered by non-increasing probability. -/
theorem ranking_perm_sorted (probs : List ℚ) :
    (ranking fun i => probs.getD i 0).Perm (List.range 10)
    ∧ (ranking fun i => probs.getD i 0).Pairwise
        (fun a b => probs.getD b 0 ≤ probs.getD a 0) := by
  constructor
  · exact (List.reverse_perm _).trans (argsortAsc_perm _ _)
  · show (argsortAsc (fun i => probs.getD i 0) (List.range 10)).reverse.Pairwise _
    rw [List.pairwise_reverse]
    exact argsortAsc_pairwise _ _

/-! ## Rendering of the mock-network vector -/

/-- On `p90` the argsort ranking starts with the unique maximum, digit 9. -/
theorem ranking_p90 :
    ranking (fun i => p90.getD i 0) = [9, 0, 8, 7, 6, 5, 4, 3, 2, 1] := by decide

/-- Formatting `0.9 * 100` with `{:6.2f}` gives the six-character field
` 90.00` (the five digits right-aligned in width 6). -/
theorem fmt62_90 : fmt62 (Rat.divInt 9 10 * 100) = " 90.00" := by
  have hm : Rat.divInt 9 10 * 100 = 90 := by
    rw [Rat.divInt_eq_div]
    norm_num
  rw [hm]
  have hr : roundHalfEven ((90:ℚ) * 100) = 9000 := by
    have h1 : (90:ℚ) * 100 = 9000 := by norm_num
    rw [h1]
    unfold roundHalfEven
    rw [ratFloor_eq_intFloor]
    norm_num
  unfold fmt62 fixed2
  rw [hr]
  decide

/-- The first rendered line on `p90`. -/
theorem renderResults_p90_head :
    (renderResults p90).head? = some "9:  90.00%" := by
  unfold renderResults
  rw [ranking_p90]
  simp only [List.map_cons, List.head?_cons]
  show some (rankedLine 9 (Rat.divInt 9 10)) = _
  unfold rankedLine
  rw [fmt62_90]
  rfl

/-- C2, counterexample: with the network returning
`[0.1, 0, 0, 0, 0, 0, 0, 0, 0, 0.9]`, the first rendered line is NOT the
claimed `"9: 90.00%"` — the `{:6.2f}` format pads the percentage on the
left to width 6, producing a second space after the colon. -/
theorem first_line_counterexample :
    (renderResults p90).head? ≠ some "9: 90.00%" := by
  rw [renderResults_p90_head]
  decide

/-- C2, amended: the first rendered line is exactly `"9:  90.00%"` — the
digit, a colon, one literal space, then the percentage with two decimal
places right-aligned in a six-character field, then `%`. -/
theorem first_line_padded : (renderResults p90).head? = some "9:  90.00%" :=
  renderResults_p90_head

/-- C6: all-zero short-circuit.  For every grid whose cells are all zero,
`_update_results` renders ten lines in natural digit order 0-9, each
showing `0.00%` — independently of the blur filter and of the network,
neither of which is invoked (the display is a constant equal for all
`blur` and `net` arguments). -/
theorem all_zero_short_circuit (blur : ByteImg → ByteImg)
    (net : List ℚ → List ℚ) (g : Grid)
    (hz : ∀ r c, inGrid r c → g r c = 0) :
    update_results_display blur net g
      = (List.range 10).map (fun d => toString d ++ ":    0.00%") := by
  unfold update_results_display
  rw [if_pos hz]
  rfl

/-- Witness for C6: the identically-zero grid, with identity stand-ins for
the blur and the network. -/
theorem all_zero_short_circuit_witness :
    update_results_display id id (fun _ _ => 0)
      = (List.range 10).map (fun d => toString d ++ ":    0.00%") :=
  all_zero_short_circuit id id (fun _ _ => 0) (fun _ _ _ => rfl)

/-- C9: clear postcondition.  From any prior state, after `clear` every
pixel is zero, every grid cell color is the background `"white"`, and the
results panel shows the all-zero display — the same display
`_update_results` produces for a never-drawn (all-zero) grid. -/
theorem clear_postcondition (blur : ByteImg → ByteImg)
    (net : List ℚ → List ℚ) (s : AppState) :
    (∀ r c, (clearOp blur net s).pixels r c = 0)
    ∧ (∀ r c, inGrid r c → (clearOp blur net s).colors r c = "white")
    ∧ (clearOp blur net s).display = zeroLines
    ∧ (clearOp blur net s).display
        = update_results_display blur net (fun _ _ => 0) := by
  have hdisp : update_results_display blur net (fun _ _ => (0:ℝ)) = zeroLines := by
    unfold update_results_display
    rw [if_pos (fun _ _ _ => rfl)]
  refine ⟨fun r c => rfl, fun r c h => ?_, hdisp, rfl⟩
  show (if inGrid r c then "white" else s.colors r c) = "white"
  rw [if_pos h]

/-- C10: frame effect.  `_update_results` only rewrites the results panel:
the pixel grid read back afterwards is unchanged (and so are the canvas
cell colors) — every transform in the pipeline operates on copies. -/
theorem update_results_preserves_pixels (blur : ByteImg → ByteImg)
    (net : List ℚ → List ℚ) (s : AppState) :
    (update_results_state blur net s).pixels = s.pixels
    ∧ (update_results_state blur net s).colors = s.colors :=
  ⟨rfl, rfl⟩

/-- C1 (evidence of the bug): a single nonzero pixel of full intensity at
row 10, column 10.  The computed center of mass is `(10, 10)` and the
computed shift is `(4, 4)`, toward the grid center `(14, 14)`.  But the
PIL affine transform samples output `(x, y)` from input
`(x + shift_x, y + shift_y)`, so the applied translation moves the content
by `(-4, -4)`: all the mass ends at cell `(6, 6)` — the mirror image of
the center across the centroid, twice as far from the center as before —
and the center cell `(14, 14)` stays 0.  Recentering would require passing
the negated offsets to the transform. -/
theorem com_shift_moves_mass_to_mirror :
    comRow (singleByteImg 10 10 255) = 10
    ∧ comCol (singleByteImg 10 10 255) = 10
    ∧ shiftY (singleByteImg 10 10 255) = 4
    ∧ shiftX (singleByteImg 10 10 255) = 4
    ∧ comShiftStep (singleByteImg 10 10 255) 6 6 = 255
    ∧ comShiftStep (singleByteImg 10 10 255) 14 14 = 0
    ∧ comRow (comShiftStep (singleByteImg 10 10 255)) = 6
    ∧ comCol (comShiftStep (singleByteImg 10 10 255)) = 6 := by
  have htot : imgTotal (singleByteImg 10 10 255) = 255 := by decide
  have hrn : comRowNum (singleByteImg 10 10 255) = 2550 := by decide
  have hcn : comColNum (singleByteImg 10 10 255) = 2550 := by decide
  have hrow : comRow (singleByteImg 10 10 255) = 10 := by
    unfold comRow
    rw [htot, hrn]
    norm_num
  have hcol : comCol (singleByteImg 10 10 255) = 10 := by
    unfold comCol
    rw [htot, hcn]
    norm_num
  have hY : shiftY (singleByteImg 10 10 255) = 4 := by
    unfold shiftY
    rw [hrow]
    norm_num [pytrunc, ratFloor_eq_intFloor]
  have hX : shiftX (singleByteImg 10 10 255) = 4 := by
    unfold shiftX
    rw [hcol]
    norm_num [pytrunc, ratFloor_eq_intFloor]
  have hstep : comShiftStep (singleByteImg 10 10 255)
      = applyAffine (singleByteImg 10 10 255) 4 4 := by
    unfold comShiftStep
    rw [hX, hY, if_pos (by rw [htot]; norm_num)]
  refine ⟨hrow, hcol, hY, hX, ?_, ?_, ?_, ?_⟩
  · rw [hstep]
    decide
  · rw [hstep]
    decide
  · rw [hstep]
    unfold comRow
    rw [show comRowNum (applyAffine (singleByteImg 10 10 255) 4 4) = 1530 from by decide,
        show imgTotal (applyAffine (singleByteImg 10 10 255) 4 4) = 255 from by decide]
    norm_num
  · rw [hstep]
    unfold comCol
    rw [show comColNum (applyAffine (singleByteImg 10 10 255) 4 4) = 1530 from by decide,
        show imgTotal (applyAffine (singleByteImg 10 10 255) 4 4) = 255 from by decide]
    norm_num

end DrawingApp
